import Mathlib

/-!
Verification of the curuam packet-primitives library (src/lib.rs):
address types (Ipv4, Ipv6, Mac), fixed header layouts, and the
Internet-style one's-complement checksum engine.

The checksum engine `checksum(header: *const u8, len: usize) -> u16`
reads raw memory, so it is embedded over an explicit memory model
`mem : Int → Nat` (the byte stored at every byte offset, including
offsets outside the buffer, which the code can reach through its
`words as usize + i - 1` pointer arithmetic).  i32 two's-complement
arithmetic is modelled on `Int` with an explicit 2^32 wrap; the
arithmetic right shift `>> 16` of an i32 is floor division by 2^16,
which for the positive divisor 65536 coincides with `Int.ediv`, and
`& 0xffff` of an i32 is `Int.emod · 65536`.  16-bit words are read in
the host's native in-memory order, modelled as little-endian (the
order of every mainstream host this crate targets); none of the
results below depend on that choice, since every definition reads and
writes words through the same `word16`/`writeWord16` pair.
-/

namespace Curuam

/-- Two's-complement wrap of an unbounded integer into the i32 range
`[-2^31, 2^31)`. -/
def wrap32 (x : Int) : Int :=
  (x + 2147483648) % 4294967296 - 2147483648

/-- The 16-bit word the engine reads at byte offset `i`:
`*((words as usize + i) as *const u16)`, i.e. the two bytes at offsets
`i` and `i+1` in native (little-endian) order. -/
def word16 (mem : Int → Nat) (i : Int) : Int :=
  (mem i : Int) + 256 * (mem (i + 1) : Int)

/-- The summation loop of `checksum`:
`while left > 1 { sum += *((words as usize + i) as *const u16) as i32; left -= 2; i += 2 }`.
Arguments are `left`, `i`, `sum`; the result is the final `(sum, i)`. -/
def sumLoop (mem : Int → Nat) : Nat → Int → Int → Int × Int
  | 0, i, s => (s, i)
  | 1, i, s => (s, i)
  | left + 2, i, s => sumLoop mem left (i + 2) (wrap32 (s + word16 mem i))

/-- The accumulator after the loop and the odd-length trailing branch
`if left == 1 { sum += *((words as usize + i - 1) as *const u8) as i32 }`:
note the source adds the byte at offset `i - 1`, one byte BEFORE the
first unconsumed byte. -/
def preFoldSum (mem : Int → Nat) (len : Nat) : Int :=
  if len % 2 = 1 then
    wrap32 ((sumLoop mem len 0 0).1 + (mem ((sumLoop mem len 0 0).2 - 1) : Int))
  else (sumLoop mem len 0 0).1

/-- The two fold steps
`sum = (sum >> 16) + (sum & 0xffff); sum += sum >> 16` on an i32. -/
def foldedAcc (s0 : Int) : Int :=
  let s1 := wrap32 (s0 / 65536 + s0 % 65536)
  wrap32 (s1 + s1 / 65536)

/-- Fold steps followed by `(!sum) as u16`: the i32 bitwise complement
of `s` is `-s - 1`, and the `u16` cast keeps its low 16 bits. -/
def foldFinish (s0 : Int) : Nat :=
  ((-(foldedAcc s0) - 1) % 65536).toNat

/-- `pub fn checksum(header: *const u8, len: usize) -> u16`. -/
def checksum (mem : Int → Nat) (len : Nat) : Nat :=
  foldFinish (preFoldSum mem len)

/-- The list of `k` aligned 16-bit words the engine reads starting at
byte offset `i`. -/
def wordsAt (mem : Int → Nat) : Int → Nat → List Int
  | _, 0 => []
  | i, k + 1 => word16 mem i :: wordsAt mem (i + 2) k

/-- Wrapping i32 summation of a list of words, as the loop performs it. -/
def sumWrap : List Int → Int → Int
  | [], s => s
  | w :: ws, s => sumWrap ws (wrap32 (s + w))

/-- The memory holding the bytes of `bs` at offsets `0, 1, ...` and
zero bytes everywhere else. -/
def memOf (bs : List Nat) : Int → Nat :=
  fun i => if i < 0 then 0 else bs.getD i.toNat 0

/-- Writing the 16-bit value `w` at byte offset `off` in the same
native (little-endian) order `word16` reads with. -/
def writeWord16 (mem : Int → Nat) (off : Int) (w : Nat) : Int → Nat :=
  fun i => if i = off then w % 256 else if i = off + 1 then w / 256 else mem i

/- ### Basic wrap and loop lemmas -/

theorem wrap32_idem (a b : Int) : wrap32 (wrap32 a + b) = wrap32 (a + b) := by
  unfold wrap32
  have h2 : (a + 2147483648) % 4294967296 - 2147483648 + b + 2147483648
      = (a + b + 2147483648) + 4294967296 * (-((a + 2147483648) / 4294967296)) := by
    have h := Int.emod_add_ediv (a + 2147483648) 4294967296
    omega
  rw [h2, Int.add_mul_emod_self_left]

theorem wrap32_eq_self {x : Int} (h1 : -2147483648 ≤ x) (h2 : x < 2147483648) :
    wrap32 x = x := by
  unfold wrap32
  rw [Int.emod_eq_of_lt (by omega) (by omega)]
  omega

theorem sumWrap_wrap (ws : List Int) : ∀ s : Int,
    sumWrap ws (wrap32 s) = wrap32 (s + ws.sum) := by
  induction ws with
  | nil => intro s; simp [sumWrap]
  | cons w ws ih =>
      intro s
      show sumWrap ws (wrap32 (wrap32 s + w)) = _
      rw [wrap32_idem, ih, List.sum_cons]
      ring_nf

theorem sumWrap_zero (ws : List Int) : sumWrap ws 0 = wrap32 ws.sum := by
  have h0 : (0 : Int) = wrap32 0 := by decide
  rw [h0, sumWrap_wrap]
  norm_num

theorem sumLoop_even (mem : Int → Nat) : ∀ (k : Nat) (i s : Int),
    sumLoop mem (2 * k) i s = (sumWrap (wordsAt mem i k) s, i + 2 * k) := by
  intro k
  induction k with
  | zero => intro i s; simp [sumLoop, wordsAt, sumWrap]
  | succ k ih =>
      intro i s
      have h2 : 2 * (k + 1) = 2 * k + 2 := by ring
      rw [h2]
      show sumLoop mem (2 * k) (i + 2) (wrap32 (s + word16 mem i)) = _
      rw [ih]
      simp [wordsAt, sumWrap, Int.add_comm s (word16 mem i)]
      omega

theorem sumLoop_odd (mem : Int → Nat) : ∀ (k : Nat) (i s : Int),
    sumLoop mem (2 * k + 1) i s = (sumWrap (wordsAt mem i k) s, i + 2 * k) := by
  intro k
  induction k with
  | zero => intro i s; simp [sumLoop, wordsAt, sumWrap]
  | succ k ih =>
      intro i s
      have h2 : 2 * (k + 1) + 1 = (2 * k + 1) + 2 := by ring
      rw [h2]
      show sumLoop mem (2 * k + 1) (i + 2) (wrap32 (s + word16 mem i)) = _
      rw [ih]
      simp [wordsAt, sumWrap, Int.add_comm s (word16 mem i)]
      omega

/-- On an even-length range the accumulator before the folds is the
wrapped sum of the aligned words. -/
theorem preFoldSum_even (mem : Int → Nat) (len : Nat) (h : len % 2 = 0) :
    preFoldSum mem len = wrap32 (wordsAt mem 0 (len / 2)).sum := by
  have hk : len = 2 * (len / 2) := by omega
  unfold preFoldSum
  rw [hk] at h ⊢
  rw [sumLoop_even]
  simp [h, sumWrap_zero]

/- ### Core fold arithmetic -/

theorem foldFinish_lt (s : Int) : foldFinish s < 65536 := by
  unfold foldFinish
  omega

/-- On a non-negative in-range accumulator the wraps are the identity
and the checksum result is `65535 - (fold2 (fold1 S)) % 65536`. -/
theorem foldFinish_nonneg_eq (S : Int) (h0 : 0 ≤ S) (h1 : S < 2147483648) :
    (foldFinish S : Int) = 65535 -
      ((S / 65536 + S % 65536 + (S / 65536 + S % 65536) / 65536) % 65536) := by
  unfold foldFinish foldedAcc
  have e1 : wrap32 (S / 65536 + S % 65536) = S / 65536 + S % 65536 :=
    wrap32_eq_self (by omega) (by omega)
  simp only [e1]
  have e2 : wrap32 (S / 65536 + S % 65536 + (S / 65536 + S % 65536) / 65536)
      = S / 65536 + S % 65536 + (S / 65536 + S % 65536) / 65536 :=
    wrap32_eq_self (by omega) (by omega)
  simp only [e2]
  omega

/-- The self-check identity of the fold: adding the computed checksum
back into an in-range accumulated sum drives the checksum to zero. -/
theorem foldFinish_self_add (S : Int) (h0 : 0 ≤ S) (h1 : S ≤ 2147385345) :
    foldFinish (S + (foldFinish S : Int)) = 0 := by
  have hclt := foldFinish_lt S
  have hc0 : (0 : Int) ≤ (foldFinish S : Int) := Int.natCast_nonneg _
  have hc := foldFinish_nonneg_eq S h0 (by omega)
  have ht := foldFinish_nonneg_eq (S + (foldFinish S : Int)) (by omega) (by omega)
  -- whether or not the first fold of `S` produced a carry, the first
  -- fold of `S + checksum` lands exactly on 65535
  have hg : (S + (foldFinish S : Int)) / 65536 + (S + (foldFinish S : Int)) % 65536
      = 65535 := by
    rcases (by omega : (S / 65536 + S % 65536) / 65536 = 0 ∨
        (S / 65536 + S % 65536) / 65536 = 1) with hq | hq
    · rw [hq] at hc
      omega
    · rw [hq] at hc
      have hcv : (foldFinish S : Int) = 131070 - (S / 65536 + S % 65536) := by
        omega
      omega
  rw [hg] at ht
  omega

/- ### Word list lemmas -/

theorem word16_nonneg (mem : Int → Nat) (i : Int) : 0 ≤ word16 mem i := by
  unfold word16
  positivity

theorem word16_le (mem : Int → Nat) (hb : ∀ i, mem i < 256) (i : Int) :
    word16 mem i ≤ 65535 := by
  unfold word16
  have h1 := hb i
  have h2 := hb (i + 1)
  omega

theorem wordsAt_sum_nonneg (mem : Int → Nat) : ∀ (k : Nat) (i : Int),
    0 ≤ (wordsAt mem i k).sum := by
  intro k
  induction k with
  | zero => intro i; simp [wordsAt]
  | succ k ih =>
      intro i
      have h1 := word16_nonneg mem i
      have h2 := ih (i + 2)
      simp only [wordsAt, List.sum_cons]
      omega

theorem wordsAt_sum_le (mem : Int → Nat) (hb : ∀ i, mem i < 256) : ∀ (k : Nat) (i : Int),
    (wordsAt mem i k).sum ≤ 65535 * k := by
  intro k
  induction k with
  | zero => intro i; simp [wordsAt]
  | succ k ih =>
      intro i
      have h1 := word16_le mem hb i
      have h2 := ih (i + 2)
      simp only [wordsAt, List.sum_cons]
      push_cast
      omega

theorem wordsAt_congr (mem1 mem2 : Int → Nat) : ∀ (k : Nat) (i : Int),
    (∀ o : Int, i ≤ o → o < i + 2 * k → mem1 o = mem2 o) →
    wordsAt mem1 i k = wordsAt mem2 i k := by
  intro k
  induction k with
  | zero => intro i _; simp [wordsAt]
  | succ k ih =>
      intro i h
      simp only [wordsAt]
      have hhead : word16 mem1 i = word16 mem2 i := by
        unfold word16
        rw [h i (by omega) (by push_cast; omega), h (i + 1) (by omega) (by push_cast; omega)]
      rw [hhead, ih (i + 2) (fun o h1 h2 => h o (by omega) (by push_cast at h2 ⊢; omega))]

/-- Overwriting the aligned word at index `m` with the 16-bit value `w`
changes the word sum by `w` minus the old word. -/
theorem wordsAt_write_sum (mem : Int → Nat) (w : Nat) :
    ∀ (k m : Nat) (i : Int), m < k →
    (wordsAt (writeWord16 mem (i + 2 * m) w) i k).sum
      = (wordsAt mem i k).sum - word16 mem (i + 2 * m) + w := by
  intro k
  induction k with
  | zero => intro m i h; omega
  | succ k ih =>
      intro m i hm
      match m with
      | 0 =>
          simp only [Nat.cast_zero, mul_zero, add_zero, wordsAt, List.sum_cons]
          have hhead : word16 (writeWord16 mem i w) i = (w : Int) := by
            unfold word16 writeWord16
            rw [if_pos rfl, if_neg (by omega), if_pos rfl]
            push_cast
            omega
          have htail : wordsAt (writeWord16 mem i w) (i + 2) k
              = wordsAt mem (i + 2) k := by
            apply wordsAt_congr
            intro o h1 h2
            unfold writeWord16
            rw [if_neg (by omega), if_neg (by omega)]
          rw [hhead, htail]
          ring
      | m' + 1 =>
          simp only [wordsAt, List.sum_cons]
          push_cast
          have hhead : word16 (writeWord16 mem (i + 2 * ((m' : Int) + 1)) w) i
              = word16 mem i := by
            unfold word16 writeWord16
            rw [if_neg (by omega), if_neg (by omega), if_neg (by omega), if_neg (by omega)]
          have hoff : i + 2 * ((m' : Int) + 1) = (i + 2) + 2 * (m' : Int) := by ring
          have htail := ih m' (i + 2) (by omega)
          rw [hoff] at hhead ⊢
          rw [hhead, htail]
          ring

/-- A region of `0xff` bytes reads as words equal to `0xffff`. -/
theorem wordsAt_const255 (mem : Int → Nat) : ∀ (k : Nat) (i : Int),
    (∀ o : Int, i ≤ o → o < i + 2 * k → mem o = 255) →
    wordsAt mem i k = List.replicate k 65535 := by
  intro k
  induction k with
  | zero => intro i _; simp [wordsAt]
  | succ k ih =>
      intro i h
      simp only [wordsAt, List.replicate_succ]
      have hhead : word16 mem i = 65535 := by
        unfold word16
        rw [h i (by omega) (by push_cast; omega), h (i + 1) (by omega) (by push_cast; omega)]
        norm_num
      rw [hhead, ih (i + 2) (fun o h1 h2 => h o (by omega) (by push_cast at h2 ⊢; omega))]

theorem sum_replicate_int (k : Nat) (x : Int) : (List.replicate k x).sum = k * x := by
  induction k with
  | zero => simp
  | succ k ih => simp [List.replicate_succ, ih]; ring

theorem wordsAt_succ (mem : Int → Nat) (i : Int) (k : Nat) :
    wordsAt mem i (k + 1) = word16 mem i :: wordsAt mem (i + 2) k := rfl

theorem wordsAt_append (mem : Int → Nat) (k1 : Nat) : ∀ (k2 : Nat) (i : Int),
    wordsAt mem i (k1 + k2) = wordsAt mem i k1 ++ wordsAt mem (i + 2 * k1) k2 := by
  induction k1 with
  | zero => intro k2 i; simp [wordsAt]
  | succ k ih =>
      intro k2 i
      rw [show k + 1 + k2 = (k + k2) + 1 by omega, wordsAt_succ, wordsAt_succ, ih k2 (i + 2)]
      rw [show i + 2 + 2 * (k : Int) = i + 2 * ((k : Int) + 1) by ring]
      push_cast
      simp

/-- On an even-length range the checksum is the finish of the wrapped
sum of the `len / 2` aligned words. -/
theorem checksum_even (mem : Int → Nat) (len : Nat) (h : len % 2 = 0) :
    checksum mem len = foldFinish (wrap32 (wordsAt mem 0 (len / 2)).sum) := by
  unfold checksum
  rw [preFoldSum_even mem len h]

/-- The unwrapped mathematical value the accumulator holds before the
folds: all aligned words plus, on odd lengths, the byte the code in
fact adds, the one at offset `len - 2`. -/
def plainSum (mem : Int → Nat) (len : Nat) : Int :=
  (wordsAt mem 0 (len / 2)).sum +
    (if len % 2 = 1 then (mem ((len : Int) - 2) : Int) else 0)

theorem foldedAcc_range (s0 : Int) (h0 : 0 ≤ s0) (h1 : s0 < 2147483648) :
    0 ≤ foldedAcc s0 ∧ foldedAcc s0 < 131072 := by
  unfold foldedAcc
  have e1 : wrap32 (s0 / 65536 + s0 % 65536) = s0 / 65536 + s0 % 65536 :=
    wrap32_eq_self (by omega) (by omega)
  simp only [e1]
  have e2 : wrap32 (s0 / 65536 + s0 % 65536 + (s0 / 65536 + s0 % 65536) / 65536)
      = s0 / 65536 + s0 % 65536 + (s0 / 65536 + s0 % 65536) / 65536 :=
    wrap32_eq_self (by omega) (by omega)
  simp only [e2]
  omega

theorem getD_lt (bs : List Nat) (h : ∀ x ∈ bs, x < 256) : ∀ n, bs.getD n 0 < 256 := by
  induction bs with
  | nil => intro n; simp [List.getD]
  | cons b bs ih =>
      intro n
      match n with
      | 0 => rw [List.getD_cons_zero]; exact h b (List.mem_cons_self _ _)
      | n + 1 =>
          rw [List.getD_cons_succ]
          exact ih (fun x hx => h x (List.mem_cons_of_mem _ hx)) n

theorem memOf_lt (bs : List Nat) (h : ∀ x ∈ bs, x < 256) (i : Int) : memOf bs i < 256 := by
  unfold memOf
  split
  · norm_num
  · exact getD_lt bs h _

/-- C1 (amended: the even length is additionally bounded by 65535, so
that the 32-bit signed accumulator cannot wrap).  For every byte memory
and even `2 ≤ len ≤ 65535` with a word-aligned two-byte checksum field
at byte offsets `2j, 2j+1` inside the range, both zero: computing
`checksum`, writing the 16-bit result into the field in the same native
byte order the engine reads words with, and recomputing `checksum` over
the whole range yields `0x0000`. -/
theorem checksum_write_self (mem : Int → Nat) (len j : Nat)
    (hb : ∀ i, mem i < 256) (heven : len % 2 = 0) (hlen2 : 2 ≤ len)
    (hlen : len ≤ 65535) (hj : 2 * j + 1 < len)
    (hz0 : mem (2 * (j : Int)) = 0) (hz1 : mem (2 * (j : Int) + 1) = 0) :
    checksum (writeWord16 mem (2 * (j : Int)) (checksum mem len)) len = 0 := by
  set k := len / 2 with hk
  have hjk : j < k := by omega
  have hkb : k ≤ 32767 := by omega
  set S : Int := (wordsAt mem 0 k).sum with hS
  have hS0 : 0 ≤ S := wordsAt_sum_nonneg mem k 0
  have hSle : S ≤ 65535 * k := wordsAt_sum_le mem hb k 0
  have hSb : S ≤ 2147385345 := by
    have hkc : (k : Int) ≤ 32767 := by exact_mod_cast hkb
    nlinarith
  have hw0 : word16 mem (2 * (j : Int)) = 0 := by
    unfold word16
    rw [hz0, hz1]
    norm_num
  have hc : checksum mem len = foldFinish S := by
    rw [checksum_even mem len heven, ← hk, ← hS,
      wrap32_eq_self (by omega) (by omega)]
  have hsum' : (wordsAt (writeWord16 mem (2 * (j : Int)) (checksum mem len)) 0 k).sum
      = S + (checksum mem len : Int) := by
    have h := wordsAt_write_sum mem (checksum mem len) k j 0 hjk
    simp only [zero_add] at h
    rw [hS, h, hw0]
    ring
  have hcb := foldFinish_lt S
  have hc0 : (0 : Int) ≤ (foldFinish S : Int) := Int.natCast_nonneg _
  rw [checksum_even _ len heven, ← hk, hsum', hc,
    wrap32_eq_self (by omega) (by omega)]
  exact foldFinish_self_add S hS0 hSb

/-- Closed instance of `checksum_write_self`: a 4-byte buffer with a
zeroed leading checksum field; the checksum is 52205 and writing it
back drives the recomputed checksum to zero. -/
theorem checksum_write_self_witness :
    checksum (memOf [0, 0, 18, 52]) 4 = 52205 ∧
    checksum (writeWord16 (memOf [0, 0, 18, 52]) (2 * ((0 : Nat) : Int))
      (checksum (memOf [0, 0, 18, 52]) 4)) 4 = 0 :=
  ⟨by decide, checksum_write_self (memOf [0, 0, 18, 52]) 4 0
    (memOf_lt _ (by decide)) (by decide) (by decide) (by decide) (by decide)
    (by decide) (by decide)⟩

/-- The byte memory holding a 65540-byte buffer whose first aligned
word is a zeroed checksum field and whose other 32769 words are all
`0xffff`. -/
def memC1 : Int → Nat := fun i => if i < 2 then 0 else if i < 65540 then 255 else 0

/-- C1 as frozen is false without a length bound: on this even-length
(65540) buffer with the zeroed aligned checksum field at offsets 0 and
1, the i32 accumulator wraps past `2^31`; the engine computes checksum
1, and after writing 1 into the field the recomputed checksum is
`0xffff`, not `0x0000`. -/
theorem checksum_write_self_cex :
    memC1 0 = 0 ∧ memC1 1 = 0 ∧
    checksum memC1 65540 = 1 ∧
    checksum (writeWord16 memC1 0 (checksum memC1 65540)) 65540 = 65535 := by
  have hwords : wordsAt memC1 2 32769 = List.replicate 32769 65535 := by
    apply wordsAt_const255
    intro o h1 h2
    unfold memC1
    rw [if_neg (by omega), if_pos (by push_cast at h2; omega)]
  have h1 : checksum memC1 65540 = 1 := by
    rw [checksum_even memC1 65540 (by norm_num),
      show (65540 : Nat) / 2 = 32769 + 1 from rfl, wordsAt_succ,
      List.sum_cons, show (0 : Int) + 2 = 2 by norm_num, hwords, sum_replicate_int]
    decide
  refine ⟨by decide, by decide, h1, ?_⟩
  rw [h1]
  have hw : wordsAt (writeWord16 memC1 0 1) 2 32769 = List.replicate 32769 65535 := by
    rw [← hwords]
    apply wordsAt_congr
    intro o ho1 ho2
    unfold writeWord16
    rw [if_neg (by omega), if_neg (by omega)]
  rw [checksum_even _ 65540 (by norm_num),
    show (65540 : Nat) / 2 = 32769 + 1 from rfl, wordsAt_succ,
    List.sum_cons, show (0 : Int) + 2 = 2 by norm_num, hw, sum_replicate_int]
  decide

/-- Modelled from the spec's words in §4.3 (the reference computation of
C3): a 32-bit signed accumulator starts at 0, takes each consecutive
16-bit word of the buffer in the host's native in-memory order, then
`acc = (acc >> 16) + (acc & 0xFFFF)`, then `acc += acc >> 16`, and the
result is the bitwise complement of the folded accumulator truncated to
16 bits. -/
def specRefChecksum (mem : Int → Nat) (len : Nat) : Nat :=
  let acc := sumWrap (wordsAt mem 0 (len / 2)) 0
  let acc1 := wrap32 (acc / 65536 + acc % 65536)
  let acc2 := wrap32 (acc1 + acc1 / 65536)
  ((-acc2 - 1) % 65536).toNat

/-- C3: on every even-length buffer the engine's checksum equals the
spec's reference computation. -/
theorem checksum_eq_specRef (mem : Int → Nat) (len : Nat) (h : len % 2 = 0) :
    checksum mem len = specRefChecksum mem len := by
  unfold checksum specRefChecksum foldFinish foldedAcc
  rw [preFoldSum_even mem len h, sumWrap_zero]

/-- Closed instance of `checksum_eq_specRef` on the 4-byte buffer
`[1, 2, 3, 4]`, where both computations give 63995. -/
theorem checksum_eq_specRef_witness :
    checksum (memOf [1, 2, 3, 4]) 4 = specRefChecksum (memOf [1, 2, 3, 4]) 4 ∧
    checksum (memOf [1, 2, 3, 4]) 4 = 63995 :=
  ⟨checksum_eq_specRef (memOf [1, 2, 3, 4]) 4 (by decide), by decide⟩

/-- C4: the engine is total — it yields a 16-bit value for every memory
and every length — and a zero-length range yields the complement of 0,
`0xffff`. -/
theorem checksum_total_and_empty :
    (∀ (mem : Int → Nat) (len : Nat), checksum mem len < 65536) ∧
    (∀ mem : Int → Nat, checksum mem 0 = 65535) :=
  ⟨fun _ _ => foldFinish_lt _, fun _ => rfl⟩

/-- C9: on even-length buffers the checksum depends only on the multiset
of aligned 16-bit words — permuted word sequences give equal checksums. -/
theorem checksum_perm_inv (mem1 mem2 : Int → Nat) (len1 len2 : Nat)
    (h1 : len1 % 2 = 0) (h2 : len2 % 2 = 0)
    (hp : List.Perm (wordsAt mem1 0 (len1 / 2)) (wordsAt mem2 0 (len2 / 2))) :
    checksum mem1 len1 = checksum mem2 len2 := by
  rw [checksum_even mem1 len1 h1, checksum_even mem2 len2 h2, hp.sum_eq]

/-- Closed instance of `checksum_perm_inv`: swapping the two aligned
words of a 4-byte buffer leaves the checksum 63995 unchanged. -/
theorem checksum_perm_inv_witness :
    checksum (memOf [1, 2, 3, 4]) 4 = checksum (memOf [3, 4, 1, 2]) 4 ∧
    checksum (memOf [3, 4, 1, 2]) 4 = 63995 :=
  ⟨checksum_perm_inv _ _ 4 4 (by decide) (by decide) (by decide), by decide⟩

/-- On an odd-length range the pre-fold accumulator is the wrapped word
sum plus the byte at offset `len - 2` (the byte the code in fact adds). -/
theorem preFoldSum_odd (mem : Int → Nat) (len : Nat) (h : len % 2 = 1) :
    preFoldSum mem len
      = wrap32 ((wordsAt mem 0 (len / 2)).sum + (mem ((len : Int) - 2) : Int)) := by
  have hk : len = 2 * (len / 2) + 1 := by omega
  have hp := sumLoop_odd mem (len / 2) 0 0
  unfold preFoldSum
  rw [if_pos h]
  conv_lhs => rw [hk]
  rw [hp]
  show wrap32 (sumWrap (wordsAt mem 0 (len / 2)) 0
    + (mem ((0 + 2 * ((len / 2 : Nat) : Int)) - 1) : Int)) = _
  rw [sumWrap_zero, wrap32_idem]
  have hoff : (0 : Int) + 2 * ((len / 2 : Nat) : Int) - 1 = (len : Int) - 2 := by
    push_cast
    omega
  rw [hoff]

/-- C10 (amended: after the two folds the accumulator lies in
`[0, 0x20000)`; it can exceed `0xffff`).  For buffers of length at most
65535 (all bytes below 256) the i32 accumulator never wraps — every
partial word sum and the final pre-fold accumulator equal their
unbounded mathematical values and stay below `2^31` — and after the two
fold steps the accumulator is non-negative and below 131072, so the
final complement truncated to `u16` is a well-defined 16-bit result. -/
theorem checksum_no_overflow (mem : Int → Nat) (len : Nat)
    (hb : ∀ i, mem i < 256) (hlen : len ≤ 65535) :
    (∀ m : Nat, m ≤ len / 2 →
      sumWrap (wordsAt mem 0 m) 0 = (wordsAt mem 0 m).sum ∧
      (wordsAt mem 0 m).sum < 2147483648) ∧
    preFoldSum mem len = plainSum mem len ∧
    0 ≤ plainSum mem len ∧ plainSum mem len < 2147483648 ∧
    0 ≤ foldedAcc (preFoldSum mem len) ∧
    foldedAcc (preFoldSum mem len) < 131072 := by
  have hkb : len / 2 ≤ 32767 := by omega
  have hpsums : ∀ m : Nat, m ≤ len / 2 →
      sumWrap (wordsAt mem 0 m) 0 = (wordsAt mem 0 m).sum ∧
      (wordsAt mem 0 m).sum < 2147483648 := by
    intro m hm
    have h0 := wordsAt_sum_nonneg mem m 0
    have hle := wordsAt_sum_le mem hb m 0
    have hmc : (m : Int) ≤ 32767 := by exact_mod_cast le_trans hm hkb
    have hlt : (wordsAt mem 0 m).sum < 2147483648 := by nlinarith
    exact ⟨by rw [sumWrap_zero, wrap32_eq_self (by omega) hlt], hlt⟩
  have hs0 := wordsAt_sum_nonneg mem (len / 2) 0
  have hslt := (hpsums (len / 2) le_rfl).2
  have hbyte := hb ((len : Int) - 2)
  have hplain0 : 0 ≤ plainSum mem len := by
    unfold plainSum
    have hcast : (0 : Int) ≤ (mem ((len : Int) - 2) : Int) := Int.natCast_nonneg _
    split <;> omega
  have hplainlt : plainSum mem len < 2147483648 := by
    have hle := wordsAt_sum_le mem hb (len / 2) 0
    have hmc : ((len / 2 : Nat) : Int) ≤ 32767 := by exact_mod_cast hkb
    unfold plainSum
    have hs : (wordsAt mem 0 (len / 2)).sum ≤ 65535 * 32767 := by nlinarith
    split <;> omega
  have hpre : preFoldSum mem len = plainSum mem len := by
    rcases Nat.even_or_odd len with he | ho
    · have h2 : len % 2 = 0 := Nat.even_iff.mp he
      rw [preFoldSum_even mem len h2, wrap32_eq_self (by omega) hslt]
      unfold plainSum
      rw [if_neg (by omega)]
      ring
    · have h2 : len % 2 = 1 := Nat.odd_iff.mp ho
      rw [preFoldSum_odd mem len h2]
      unfold plainSum
      rw [if_pos h2]
      have hpl := hplainlt
      unfold plainSum at hpl
      rw [if_pos h2] at hpl
      exact wrap32_eq_self (by omega) hpl
  refine ⟨hpsums, hpre, hplain0, hplainlt, ?_, ?_⟩
  · exact (foldedAcc_range _ (by omega) (by omega)).1
  · exact (foldedAcc_range _ (by omega) (by omega)).2

/-- Closed instance of `checksum_no_overflow` on the odd 3-byte buffer
`[1, 2, 3]`: the pre-fold accumulator equals the plain 515 and the
folded accumulator is 515. -/
theorem checksum_no_overflow_witness :
    preFoldSum (memOf [1, 2, 3]) 3 = plainSum (memOf [1, 2, 3]) 3 ∧
    plainSum (memOf [1, 2, 3]) 3 = 515 ∧
    foldedAcc (preFoldSum (memOf [1, 2, 3]) 3) < 131072 :=
  ⟨(checksum_no_overflow (memOf [1, 2, 3]) 3 (memOf_lt _ (by decide))
      (by decide)).2.1,
   by decide,
   (checksum_no_overflow (memOf [1, 2, 3]) 3 (memOf_lt _ (by decide))
      (by decide)).2.2.2.2.2⟩

/-- The byte memory of the 65534-byte buffer made of 32766 `0xffff`
words followed by the word `0x0001`. -/
def memC10 : Int → Nat :=
  fun i => if i < 0 then 0 else if i < 65532 then 255 else if i = 65532 then 1 else 0

/-- C10 as frozen is false: on this 65534-byte buffer (length at most
65535, all bytes below 256) the accumulator after the two fold steps is
65537, outside `0..=0xFFFF`. -/
theorem checksum_no_overflow_cex :
    foldedAcc (preFoldSum memC10 65534) = 65537 := by
  have hwords : wordsAt memC10 0 32766 = List.replicate 32766 65535 := by
    apply wordsAt_const255
    intro o h1 h2
    unfold memC10
    rw [if_neg (by omega), if_pos (by push_cast at h2; omega)]
  have hsum : (wordsAt memC10 0 32767).sum = 2147319811 := by
    rw [show (32767 : Nat) = 32766 + 1 from rfl, wordsAt_append, hwords]
    rw [List.sum_append, sum_replicate_int]
    decide
  rw [preFoldSum_even memC10 65534 (by norm_num),
    show (65534 : Nat) / 2 = 32767 from rfl, hsum]
  decide

/-- A 1-byte buffer holding `0x01` at offset 0, but with the byte 200
at offset -1, before the buffer. -/
def memOob : Int → Nat :=
  fun i => if i = 0 then 1 else if i = -1 then 200 else 0

/-- C2 fails on the code: the trailing branch adds the byte at offset
`i - 1` (= `len - 2`), not the trailing byte.  For the 3-byte buffer
`[0x12, 0x34, 0x56]` the byte 0x34 at offset 1 is added a second time
and the trailing byte 0x56 is never read — replacing it by 0x99 leaves
the checksum at 52153.  For `checksum([0x01], 1)` the code reads the
byte at offset -1, before the buffer: 0x01 is never incorporated, and
two memories that agree on the whole buffer but differ at offset -1
give different results (65535 vs 65335). -/
theorem checksum_trailing_byte_bug :
    checksum (memOf [18, 52, 86]) 3 = 52153 ∧
    checksum (memOf [18, 52, 153]) 3 = 52153 ∧
    memOf [1] 0 = 1 ∧ memOob 0 = 1 ∧
    checksum (memOf [1]) 1 = 65535 ∧
    checksum memOob 1 = 65335 :=
  ⟨by decide, by decide, by decide, by decide, by decide, by decide⟩

/- ### Address types -/

/-- `pub struct Ipv4 { octets: [u8; IPV4_LEN] }` (`IPV4_LEN = 4`). -/
structure Ipv4 where
  octets : List Nat

/-- `pub struct Ipv6 { octets: [u8; IPV6_LEN] }` (`IPV6_LEN = 16`). -/
structure Ipv6 where
  octets : List Nat

/-- `pub struct Mac { mac_addr: [u8; MAC_LEN] }` (`MAC_LEN = 6`). -/
structure Mac where
  mac_addr : List Nat

/-- `impl Handle<[u8; IPV4_LEN]> for Ipv4`, `fn from`: stores the octets. -/
def Ipv4.ofBytes (b : List Nat) : Ipv4 := ⟨b⟩

/-- `impl Handle<[u8; IPV4_LEN]> for Ipv4`, `fn to`: returns a copy of
the octets (`self.octets.clone()`). -/
def Ipv4.toBytes (a : Ipv4) : List Nat := a.octets

/-- `impl Handle<[u8; IPV6_LEN]> for Ipv6`, `fn from`. -/
def Ipv6.ofBytes (b : List Nat) : Ipv6 := ⟨b⟩

/-- `impl Handle<[u8; IPV6_LEN]> for Ipv6`, `fn to`. -/
def Ipv6.toBytes (a : Ipv6) : List Nat := a.octets

/-- `impl Handle<[u8; MAC_LEN]> for Mac`, `fn from`. -/
def Mac.ofBytes (b : List Nat) : Mac := ⟨b⟩

/-- `impl Handle<[u8; MAC_LEN]> for Mac`, `fn to`. -/
def Mac.toBytes (m : Mac) : List Nat := m.mac_addr

/-- `impl Handle<u32> for Ipv4`, `fn from(value: u32)`: extracts bytes
`o1 = v & 0xff`, `o2 = (v >> 8) & 0xff`, `o3 = (v >> 16) & 0xff`,
`o4 = (v >> 24) & 0xff` and stores `[o4, o3, o2, o1]`. -/
def Ipv4.ofU32 (v : Nat) : Ipv4 :=
  Ipv4.ofBytes [v / 16777216 % 256, v / 65536 % 256, v / 256 % 256, v % 256]

/-- `impl Handle<u32> for Ipv4`, `fn to`: the u32
`(o0 << 24) + (o1 << 16) + (o2 << 8) + (o3 << 0)`. -/
def Ipv4.toU32 (a : Ipv4) : Nat :=
  (a.octets.getD 0 0) * 16777216 + (a.octets.getD 1 0) * 65536
    + (a.octets.getD 2 0) * 256 + a.octets.getD 3 0

/-- C5: the IPv4 u32 form is big-endian with exact round trips: octet 0
is the most significant byte and octet 3 the least, `[192,168,1,1]`
maps to `0xC0A80101`, u32 → Ipv4 → u32 is the identity on u32 values,
and bytes → u32 → bytes is the identity on octet arrays. -/
theorem ipv4_u32_repr (b0 b1 b2 b3 v : Nat)
    (h0 : b0 < 256) (h1 : b1 < 256) (h2 : b2 < 256) (h3 : b3 < 256)
    (hv : v < 4294967296) :
    (Ipv4.ofBytes [b0, b1, b2, b3]).toU32
        = b0 * 16777216 + b1 * 65536 + b2 * 256 + b3 ∧
    (Ipv4.ofBytes [b0, b1, b2, b3]).toU32 / 16777216 = b0 ∧
    (Ipv4.ofBytes [b0, b1, b2, b3]).toU32 % 256 = b3 ∧
    (Ipv4.ofBytes [192, 168, 1, 1]).toU32 = 3232235777 ∧
    (Ipv4.ofU32 v).toU32 = v ∧
    (Ipv4.ofU32 (Ipv4.ofBytes [b0, b1, b2, b3]).toU32).toBytes
        = [b0, b1, b2, b3] := by
  unfold Ipv4.ofU32 Ipv4.ofBytes Ipv4.toU32 Ipv4.toBytes
  simp only [List.getD_cons_zero, List.getD_cons_succ]
  refine ⟨trivial, by omega, by omega, trivial, by omega, ?_⟩
  have e0 : (b0 * 16777216 + b1 * 65536 + b2 * 256 + b3) / 16777216 % 256 = b0 := by
    omega
  have e1 : (b0 * 16777216 + b1 * 65536 + b2 * 256 + b3) / 65536 % 256 = b1 := by
    omega
  have e2 : (b0 * 16777216 + b1 * 65536 + b2 * 256 + b3) / 256 % 256 = b2 := by
    omega
  have e3 : (b0 * 16777216 + b1 * 65536 + b2 * 256 + b3) % 256 = b3 := by
    omega
  rw [e0, e1, e2, e3]

/-- Closed instance of `ipv4_u32_repr` at octets `[192,168,1,1]` and
the u32 `0xC0A80101`. -/
theorem ipv4_u32_repr_witness :
    (Ipv4.ofBytes [192, 168, 1, 1]).toU32 = 3232235777 ∧
    (Ipv4.ofU32 3232235777).toU32 = 3232235777 :=
  ⟨(ipv4_u32_repr 192 168 1 1 3232235777 (by decide) (by decide) (by decide)
      (by decide) (by decide)).2.2.2.1,
   (ipv4_u32_repr 192 168 1 1 3232235777 (by decide) (by decide) (by decide)
      (by decide) (by decide)).2.2.2.2.1⟩

/-- C6: construction from octets followed by retrieval is the identity
for every address type; in the pure model `to` returns the stored octet
value itself (the source returns `clone()`, a copy, never an alias). -/
theorem address_roundtrip (b4 b16 b6 : List Nat) :
    (Ipv4.ofBytes b4).toBytes = b4 ∧
    (Ipv6.ofBytes b16).toBytes = b16 ∧
    (Mac.ofBytes b6).toBytes = b6 :=
  ⟨rfl, rfl, rfl⟩

/-- One lowercase hexadecimal digit, as Rust's `{:x}` prints it. -/
def hexDigit (n : Nat) : Char :=
  if n < 10 then Char.ofNat (48 + n) else Char.ofNat (87 + n)

/-- Digits of `n` in base 16, most significant first, without leading
zeros (0 prints as "0"); `fuel` bounds the recursion structurally and
`n + 1` is always enough. -/
def hexCharsAux : Nat → Nat → List Char
  | 0, _ => []
  | fuel + 1, n =>
      if n < 16 then [hexDigit n]
      else hexCharsAux fuel (n / 16) ++ [hexDigit (n % 16)]

/-- Rust `{:x}` of an unsigned integer: lowercase hex, no padding, no
prefix. -/
def hexStr (n : Nat) : String := String.mk (hexCharsAux (n + 1) n)

/-- `impl std::fmt::Display for Mac`:
`write!(f, "{:x}:{:x}:{:x}:{:x}:{:x}:{:x}", mac_addr[0], ..., mac_addr[5])`. -/
def Mac.to_string (m : Mac) : String :=
  hexStr (m.mac_addr.getD 0 0) ++ ":" ++ hexStr (m.mac_addr.getD 1 0) ++ ":"
    ++ hexStr (m.mac_addr.getD 2 0) ++ ":" ++ hexStr (m.mac_addr.getD 3 0) ++ ":"
    ++ hexStr (m.mac_addr.getD 4 0) ++ ":" ++ hexStr (m.mac_addr.getD 5 0)

/-- The value a big-endian list of hex digit characters denotes, used
to check that `hexStr` prints the right number. -/
def hexDigitVal (c : Char) : Nat :=
  if c.toNat ≥ 97 then c.toNat - 87 else c.toNat - 48

def hexVal (s : List Char) : Nat := s.foldl (fun a c => 16 * a + hexDigitVal c) 0

set_option maxRecDepth 4000 in
/-- C7: a MAC prints as six lowercase hexadecimal octet values joined by
colons, without zero-padding: the spec's two examples hold, and for
every octet value below 256 the printed digits are lowercase hex
characters, a single digit when the value is below 16 (no padding), no
leading zero otherwise, and they denote exactly the octet value. -/
theorem mac_display (n : Nat) (hn : n < 256) :
    Mac.to_string (Mac.ofBytes [0, 1, 2, 3, 4, 5]) = "0:1:2:3:4:5" ∧
    Mac.to_string (Mac.ofBytes [255, 255, 255, 255, 255, 255]) = "ff:ff:ff:ff:ff:ff" ∧
    (∀ c ∈ hexCharsAux (n + 1) n, c ∈ "0123456789abcdef".data) ∧
    (n < 16 → (hexCharsAux (n + 1) n).length = 1) ∧
    (16 ≤ n → (hexCharsAux (n + 1) n).head? ≠ some '0') ∧
    hexVal (hexCharsAux (n + 1) n) = n := by
  have h : ∀ m : Nat, m < 256 →
      (∀ c ∈ hexCharsAux (m + 1) m, c ∈ "0123456789abcdef".data) ∧
      (m < 16 → (hexCharsAux (m + 1) m).length = 1) ∧
      (16 ≤ m → (hexCharsAux (m + 1) m).head? ≠ some '0') ∧
      hexVal (hexCharsAux (m + 1) m) = m := by decide
  exact ⟨by decide, by decide, (h n hn).1, (h n hn).2.1, (h n hn).2.2.1,
    (h n hn).2.2.2⟩

/-- Closed instance of `mac_display` at octet 255. -/
theorem mac_display_witness :
    Mac.to_string (Mac.ofBytes [0, 1, 2, 3, 4, 5]) = "0:1:2:3:4:5" ∧
    hexVal (hexCharsAux (255 + 1) 255) = 255 :=
  ⟨(mac_display 255 (by decide)).1, (mac_display 255 (by decide)).2.2.2.2.2⟩

/- ### Header layouts -/

/-- A `repr(C)` struct field: its size and alignment in bytes on the
targets this crate builds for (u8: 1/1, u16: 2/2, u32: 4/4, byte
arrays: n/1). -/
structure CField where
  size : Nat
  align : Nat

def u8F : CField := ⟨1, 1⟩
def u16F : CField := ⟨2, 2⟩
def u32F : CField := ⟨4, 4⟩
def byF (n : Nat) : CField := ⟨n, 1⟩

def alignUp (n a : Nat) : Nat := (n + a - 1) / a * a

/-- `repr(C)` layout: each field is placed at the next offset aligned
to its own alignment, and the struct size is the end of the last field
rounded up to the struct alignment (the maximal field alignment). -/
def structSize (fs : List CField) : Nat :=
  alignUp (fs.foldl (fun o f => alignUp o f.align + f.size) 0)
    (fs.foldl (fun m f => max m f.align) 1)

/-- Zero padding anywhere in the struct: its size is exactly the sum of
its field widths. -/
def noPadding (fs : List CField) : Prop :=
  structSize fs = (fs.map CField.size).sum

/-- `#[repr(C)] pub struct ArpHeader`: hardware_type u16, protocol_type
u16, hardware_len u8, protocol_len u8, opcode u16, sender_mac [u8; 6],
sender_ip [u8; 4], target_mac [u8; 6], target_ip [u8; 4]. -/
def ArpHeader : List CField :=
  [u16F, u16F, u8F, u8F, u16F, byF 6, byF 4, byF 6, byF 4]

/-- `#[repr(C)] pub struct IcmpHeader`: type_ u8, code u8, check u16,
id u16, sq u16. -/
def IcmpHeader : List CField := [u8F, u8F, u16F, u16F, u16F]

/-- `#[repr(C)] pub struct EthHeader`: dest [u8; 6], source [u8; 6],
proto u16. -/
def EthHeader : List CField := [byF 6, byF 6, u16F]

/-- `#[repr(C)] pub struct Ipv4Header`: verihl u8, tos u8, tot_len u16,
id u16, frag u16, ttl u8, protocol u8, check u16, saddr [u8; 4],
daddr [u8; 4]. -/
def Ipv4Header : List CField :=
  [u8F, u8F, u16F, u16F, u16F, u8F, u8F, u16F, byF 4, byF 4]

/-- `#[repr(C)] pub struct Ipv6Header`: verlab u32, payload u16, next
u8, hop u8, src [u8; 16], dst [u8; 16]. -/
def Ipv6Header : List CField :=
  [u32F, u16F, u8F, u8F, byF 16, byF 16]

/-- Modelled from the spec: the §4.2 field tables as width sequences,
in table order. -/
def specEthWidths : List Nat := [6, 6, 2]

def specArpWidths : List Nat := [2, 2, 1, 1, 2, 6, 4, 6, 4]

def specIcmpWidths : List Nat := [1, 1, 2, 2, 2]

def specIpv4Widths : List Nat := [1, 1, 2, 2, 2, 1, 1, 2, 4, 4]

def specIpv6Widths : List Nat := [4, 2, 1, 1, 16, 16]

/-- C8: every header layout has zero inter-field padding, field widths
in exactly the order of the spec's field tables, and total size equal
to the protocol wire size: 14, 28, 8, 20 and 40 bytes. -/
theorem header_layout_sizes :
    structSize EthHeader = 14 ∧ structSize ArpHeader = 28 ∧
    structSize IcmpHeader = 8 ∧ structSize Ipv4Header = 20 ∧
    structSize Ipv6Header = 40 ∧
    noPadding EthHeader ∧ noPadding ArpHeader ∧ noPadding IcmpHeader ∧
    noPadding Ipv4Header ∧ noPadding Ipv6Header ∧
    EthHeader.map CField.size = specEthWidths ∧
    ArpHeader.map CField.size = specArpWidths ∧
    IcmpHeader.map CField.size = specIcmpWidths ∧
    Ipv4Header.map CField.size = specIpv4Widths ∧
    Ipv6Header.map CField.size = specIpv6Widths :=
  ⟨rfl, rfl, rfl, rfl, rfl, rfl, rfl, rfl, rfl, rfl, rfl, rfl, rfl, rfl, rfl⟩
